import Mathlib

/-!
Shallow embedding of the koofr/goamz `s3` package core: the multipart
upload state machine (`multi.go`) and the AWS Signature Version 4
canonicalization (`sign_v4.go`).

Go strings are modelled as Lean `String` (ASCII payloads; multi-byte
UTF-8 escaping is outside the inputs exercised here).  `sort.Sort` is
modelled by insertion sort, a sorted permutation, which is exactly the
contract `sort.Sort` guarantees for its `Less` relation.
-/

namespace Goamz

open scoped List

/-- Service error value.  Modelled from the spec: the error-classification
collaborator (`shouldRetry` / `hasCode`, defined in `s3.go`, which is not
among the embedded sources) "given an error from a call attempt, decides
retryable vs. terminal, and recognizes a specific no-such-upload condition
code". -/
structure SvcErr where
  retryable : Bool
  code : String
  msg : String := ""
deriving Repr, DecidableEq

/-- Modelled from the spec: retryable-vs-terminal classification of an error. -/
def shouldRetry (e : SvcErr) : Bool := e.retryable

/-- Modelled from the spec: recognizing a specific condition code on an error. -/
def hasCode (e : SvcErr) (c : String) : Bool := e.code = c

/-- Part record from `multi.go`: one uploaded chunk
(`N` = 1-based sequence number, `ETag` = integrity tag, `Size` = byte size). -/
structure Part where
  N : Int
  ETag : String
  Size : Int
deriving Repr, DecidableEq

/-- Go zero value `Part\x7b\x7d` as returned alongside errors. -/
def Part.empty : Part := ⟨0, "", 0⟩

/-- CompletePart record from `multi.go` (`completePart`): one manifest entry. -/
structure CompletePart where
  PartNumber : Int
  ETag : String
deriving Repr, DecidableEq

/-- Ordering used by `completeParts.Less` (strict `<` on `PartNumber`),
stated non-strictly: `sort.Sort` guarantees the output is a permutation
with no pair `i ≤ j` such that `Less (j) (i)`, i.e. pairwise `≤`. -/
def cpLE (a b : CompletePart) : Prop := a.PartNumber ≤ b.PartNumber

instance : DecidableRel cpLE := fun a b =>
  inferInstanceAs (Decidable (a.PartNumber ≤ b.PartNumber))

instance : IsTotal CompletePart cpLE := ⟨fun a b => Int.le_total a.PartNumber b.PartNumber⟩

instance : IsTrans CompletePart cpLE := ⟨fun _ _ _ h h' => le_trans h h'⟩

/-- The `sort.Sort(c.Parts)` step of `Multi.Complete`, modelled as a
sorted permutation (insertion sort) for the `completeParts` ordering. -/
def sortCompleteParts (l : List CompletePart) : List CompletePart :=
  List.insertionSort cpLE l

/-- The manifest `Multi.Complete` builds before `xml.Marshal`: collect
`(p.N, p.ETag)` of each supplied part in input order, then sort. -/
def completeManifest (parts : List Part) : List CompletePart :=
  sortCompleteParts (parts.map (fun p => ⟨p.N, p.ETag⟩))

/-- Strict ordering on manifest entries, used to show uniqueness of the
sorted manifest when part numbers are distinct. -/
def cpLT (a b : CompletePart) : Prop := a.PartNumber < b.PartNumber

theorem completeManifest_perm (parts : List Part) :
    completeManifest parts ~ parts.map (fun p => ⟨p.N, p.ETag⟩) :=
  List.perm_insertionSort cpLE _

theorem completeManifest_sorted_le (parts : List Part) :
    (completeManifest parts).Sorted cpLE :=
  List.sorted_insertionSort cpLE _

theorem completeManifest_map_partNumber (parts : List Part) :
    (completeManifest parts).map CompletePart.PartNumber ~ parts.map Part.N := by
  have h := (completeManifest_perm parts).map CompletePart.PartNumber
  rwa [List.map_map] at h

theorem sorted_lt_of_sorted_le_nodup {l : List CompletePart}
    (hs : l.Sorted cpLE) (hn : (l.map CompletePart.PartNumber).Nodup) :
    l.Sorted cpLT := by
  have hne : l.Pairwise (fun a b => a.PartNumber ≠ b.PartNumber) := by
    rw [List.Nodup, List.pairwise_map] at hn
    exact hn
  exact (hs.and hne).imp (fun h => lt_of_le_of_ne h.1 h.2)

theorem completeManifest_eq_of_perm {parts₁ parts₂ : List Part}
    (hp : parts₁ ~ parts₂) (hn : (parts₁.map Part.N).Nodup) :
    completeManifest parts₁ = completeManifest parts₂ := by
  haveI : IsAntisymm CompletePart cpLT :=
    ⟨fun a b h h' => absurd h' (not_lt.mpr (le_of_lt h))⟩
  have hn₁ : ((completeManifest parts₁).map CompletePart.PartNumber).Nodup :=
    (completeManifest_map_partNumber parts₁).symm.nodup hn
  have hn₂ : ((completeManifest parts₂).map CompletePart.PartNumber).Nodup :=
    ((completeManifest_map_partNumber parts₂).symm.nodup
      ((hp.map Part.N).nodup hn))
  have hmm : completeManifest parts₁ ~ completeManifest parts₂ :=
    (completeManifest_perm parts₁).trans
      ((hp.map _).trans (completeManifest_perm parts₂).symm)
  exact List.eq_of_perm_of_sorted hmm
    (sorted_lt_of_sorted_le_nodup (completeManifest_sorted_le parts₁) hn₁)
    (sorted_lt_of_sorted_le_nodup (completeManifest_sorted_le parts₂) hn₂)

/-- C1: for every input list of Part records, in any order and with any
1-based part numbers, `Multi.Complete` serializes a manifest whose
(PartNumber, ETag) entries are sorted ascending by part number and are
exactly the supplied parts' entries; moreover (with distinct part
numbers) the manifest is literally identical for any permutation of the
supplied parts. -/
theorem c1_complete_manifest_sorted :
    (∀ parts : List Part,
      (completeManifest parts).Sorted cpLE ∧
      completeManifest parts ~ parts.map (fun p => ⟨p.N, p.ETag⟩)) ∧
    (∀ parts₁ parts₂ : List Part, parts₁ ~ parts₂ →
      (parts₁.map Part.N).Nodup →
      completeManifest parts₁ = completeManifest parts₂) :=
  ⟨fun parts => ⟨completeManifest_sorted_le parts, completeManifest_perm parts⟩,
   fun _ _ hp hn => completeManifest_eq_of_perm hp hn⟩

/-- C1 witness: the spec's example. Parts supplied as (2,"E2",32),(1,"E1",64)
yield the manifest listing part 1 before part 2, identically to the
already-ordered supply. -/
theorem c1_complete_manifest_sorted_witness :
    completeManifest [⟨2, "E2", 32⟩, ⟨1, "E1", 64⟩] =
      completeManifest [⟨1, "E1", 64⟩, ⟨2, "E2", 32⟩] ∧
    completeManifest [⟨2, "E2", 32⟩, ⟨1, "E1", 64⟩] = [⟨1, "E1"⟩, ⟨2, "E2"⟩] :=
  ⟨c1_complete_manifest_sorted.2 _ _ (by decide) (by decide), by decide⟩

/-! ## Pagination loops: `Multi.ListParts` and `Bucket.ListMulti` -/

/-- Ordering used by `partSlice.Less` (strict `<` on `N`), stated
non-strictly as the pairwise guarantee of `sort.Sort`. -/
def partLE (a b : Part) : Prop := a.N ≤ b.N

instance : DecidableRel partLE := fun a b =>
  inferInstanceAs (Decidable (a.N ≤ b.N))

instance : IsTotal Part partLE := ⟨fun a b => Int.le_total a.N b.N⟩

instance : IsTrans Part partLE := ⟨fun _ _ _ h h' => le_trans h h'⟩

/-- The `sort.Sort(parts)` step of `Multi.ListParts` (a `partSlice`),
modelled as a sorted permutation. -/
def sortParts (l : List Part) : List Part :=
  List.insertionSort partLE l

/-- ListPartsResp structure from `multi.go` (`listPartsResp`). -/
structure ListPartsResp where
  NextPartNumberMarker : String
  IsTruncated : Bool
  Part : List Part
deriving Repr, DecidableEq

/-- MultiRec models the `Multi` struct of `multi.go` (upload session).
The `Bucket` back-pointer (pointer identity) and the `Initiated`
timestamp (wall-clock time) are not modelled. -/
structure MultiRec where
  Key : String
  UploadId : String
deriving Repr, DecidableEq

/-- ListMultiResp structure from `multi.go` (`listMultiResp`). -/
structure ListMultiResp where
  NextKeyMarker : String
  NextUploadIdMarker : String
  IsTruncated : Bool
  Upload : List MultiRec
  CommonPrefixes : List String
deriving Repr, DecidableEq

/-- Outcome of one attempt of a paginated fetch: the transport either
fails with an error or yields a decoded response page.  A script (list)
of outcomes stands for the sequence of server responses; the request
markers only address pages at the transport, which the script already
fixes, so they are not tracked. -/
inductive Fetch (ρ : Type) where
  | err (e : SvcErr)
  | page (resp : ρ)
deriving Repr, DecidableEq

/-- Retry loop of `Multi.ListParts`.  The attempt policy is modelled from
the spec (`aws.AttemptStrategy` is outside the embedded sources, and the
spec treats it as the injectable policy "start an attempt sequence;
advance; tell whether more attempts remain"): a bounded budget of `maxA`
attempts; `attempts.Start()` yields a full budget, each loop iteration
consumes one, and `attempt.HasNext()` holds while budget remains.
`budget` is the number of loop iterations still allowed; `none` models
running off the script or the `panic` fallthrough. -/
def listPartsRun (maxA : Nat) :
    Nat → List Part → List (Fetch ListPartsResp) →
    Option (Except SvcErr (List Part))
  | 0, _, _ => none
  | _ + 1, _, [] => none
  | b + 1, acc, f :: rest =>
    match f with
    | .err e =>
      if shouldRetry e ∧ 1 ≤ b then listPartsRun maxA b acc rest
      else some (.error e)
    | .page resp =>
      if resp.IsTruncated then listPartsRun maxA maxA (acc ++ resp.Part) rest
      else some (.ok (sortParts (acc ++ resp.Part)))

/-- The response pages that a `listPartsRun` execution folds into its
return value, in arrival order. -/
def listPartsPages (maxA : Nat) :
    Nat → List (Fetch ListPartsResp) → List (List Part)
  | 0, _ => []
  | _ + 1, [] => []
  | b + 1, f :: rest =>
    match f with
    | .err e =>
      if shouldRetry e ∧ 1 ≤ b then listPartsPages maxA b rest else []
    | .page resp =>
      if resp.IsTruncated then resp.Part :: listPartsPages maxA maxA rest
      else [resp.Part]

/-- Retry loop of `Bucket.ListMulti`, accumulating sessions and common
prefixes across pages; attempt policy modelled as in `listPartsRun`. -/
def listMultiRun (maxA : Nat) :
    Nat → List MultiRec → List String → List (Fetch ListMultiResp) →
    Option (Except SvcErr (List MultiRec × List String))
  | 0, _, _, _ => none
  | _ + 1, _, _, [] => none
  | b + 1, multis, commonPre, f :: rest =>
    match f with
    | .err e =>
      if shouldRetry e ∧ 1 ≤ b then listMultiRun maxA b multis commonPre rest
      else some (.error e)
    | .page resp =>
      if resp.IsTruncated then
        listMultiRun maxA maxA (multis ++ resp.Upload)
          (commonPre ++ resp.CommonPrefixes) rest
      else some (.ok (multis ++ resp.Upload, commonPre ++ resp.CommonPrefixes))

theorem listPartsRun_ok (maxA : Nat) (script : List (Fetch ListPartsResp)) :
    ∀ (budget : Nat) (acc ps : List Part),
      listPartsRun maxA budget acc script = some (.ok ps) →
      ps.Sorted partLE ∧ ps ~ acc ++ (listPartsPages maxA budget script).flatten := by
  induction script with
  | nil =>
    intro budget acc ps h
    cases budget <;> simp [listPartsRun] at h
  | cons f rest ih =>
    intro budget acc ps h
    cases budget with
    | zero => simp [listPartsRun] at h
    | succ b =>
      cases f with
      | err e =>
        rw [listPartsRun] at h
        by_cases hc : shouldRetry e ∧ 1 ≤ b
        · rw [if_pos hc] at h
          have := ih b acc ps h
          rw [listPartsPages, if_pos hc]
          exact this
        · rw [if_neg hc] at h
          cases h
      | page resp =>
        rw [listPartsRun] at h
        by_cases hc : resp.IsTruncated = true
        · simp only [hc, if_true] at h
          have := ih maxA (acc ++ resp.Part) ps h
          rw [listPartsPages, if_pos hc, List.flatten_cons, ← List.append_assoc]
          exact this
        · simp only [hc, if_false] at h
          cases h
          rw [listPartsPages, if_neg hc]
          refine ⟨List.sorted_insertionSort partLE _, ?_⟩
          simpa using List.perm_insertionSort partLE (acc ++ resp.Part)

/-- C6: for every sequence of scripted responses on which `ListParts`
succeeds, the returned list is exactly the concatenation of all fetched
pages' parts, sorted ascending by part number (hence independent of
in-page or cross-page arrival order). -/
theorem c6_listParts_sorted_concat (maxA : Nat)
    (script : List (Fetch ListPartsResp)) (ps : List Part)
    (h : listPartsRun maxA maxA [] script = some (.ok ps)) :
    ps.Sorted partLE ∧ ps ~ (listPartsPages maxA maxA script).flatten := by
  simpa using listPartsRun_ok maxA script maxA [] ps h

/-- C6 witness: a first truncated page delivering parts 2 and 1 out of
order, a retryable transient error, then a final page with part 3,
yield the sorted aggregate [1, 2, 3]. -/
theorem c6_listParts_sorted_concat_witness :
    listPartsRun 2 2 []
        [.page ⟨"2", true, [⟨2, "E2", 32⟩, ⟨1, "E1", 64⟩]⟩,
         .err ⟨true, "", ""⟩,
         .page ⟨"", false, [⟨3, "E3", 16⟩]⟩] =
      some (.ok [⟨1, "E1", 64⟩, ⟨2, "E2", 32⟩, ⟨3, "E3", 16⟩]) ∧
    [(⟨1, "E1", 64⟩ : Part), ⟨2, "E2", 32⟩, ⟨3, "E3", 16⟩].Sorted partLE ∧
    [(⟨1, "E1", 64⟩ : Part), ⟨2, "E2", 32⟩, ⟨3, "E3", 16⟩] ~
      (listPartsPages 2 2
        [.page ⟨"2", true, [⟨2, "E2", 32⟩, ⟨1, "E1", 64⟩]⟩,
         .err ⟨true, "", ""⟩,
         .page ⟨"", false, [⟨3, "E3", 16⟩]⟩]).flatten :=
  ⟨rfl, c6_listParts_sorted_concat 2 _ _ rfl⟩

/-- C7: in both pagination loops, a successfully fetched truncated page
resets the attempt budget to full for the next page, and a retry of the
current page keeps everything already accumulated from previous pages
(the accumulator argument is passed through unchanged). -/
theorem c7_budget_reset_and_keep :
    (∀ (maxA b : Nat) (acc : List Part) (resp : ListPartsResp)
        (rest : List (Fetch ListPartsResp)), resp.IsTruncated = true →
      listPartsRun maxA (b + 1) acc (.page resp :: rest) =
        listPartsRun maxA maxA (acc ++ resp.Part) rest) ∧
    (∀ (maxA b : Nat) (acc : List Part) (e : SvcErr)
        (rest : List (Fetch ListPartsResp)), shouldRetry e = true → 1 ≤ b →
      listPartsRun maxA (b + 1) acc (.err e :: rest) =
        listPartsRun maxA b acc rest) ∧
    (∀ (maxA b : Nat) (multis : List MultiRec) (commonPre : List String)
        (resp : ListMultiResp) (rest : List (Fetch ListMultiResp)),
        resp.IsTruncated = true →
      listMultiRun maxA (b + 1) multis commonPre (.page resp :: rest) =
        listMultiRun maxA maxA (multis ++ resp.Upload)
          (commonPre ++ resp.CommonPrefixes) rest) ∧
    (∀ (maxA b : Nat) (multis : List MultiRec) (commonPre : List String)
        (e : SvcErr) (rest : List (Fetch ListMultiResp)),
        shouldRetry e = true → 1 ≤ b →
      listMultiRun maxA (b + 1) multis commonPre (.err e :: rest) =
        listMultiRun maxA b multis commonPre rest) := by
  refine ⟨fun maxA b acc resp rest ht => ?_, fun maxA b acc e rest hr hb => ?_,
    fun maxA b multis commonPre resp rest ht => ?_,
    fun maxA b multis commonPre e rest hr hb => ?_⟩
  · rw [listPartsRun, if_pos ht]
  · rw [listPartsRun, if_pos ⟨hr, hb⟩]
  · rw [listMultiRun, if_pos ht]
  · rw [listMultiRun, if_pos ⟨hr, hb⟩]

/-- C7 witness: concrete instances of all four equations at small inputs. -/
theorem c7_budget_reset_and_keep_witness :
    (listPartsRun 3 2 [⟨1, "E1", 64⟩]
        [.page ⟨"1", true, [⟨2, "E2", 32⟩]⟩, .page ⟨"", false, []⟩] =
      listPartsRun 3 3 [⟨1, "E1", 64⟩, ⟨2, "E2", 32⟩] [.page ⟨"", false, []⟩]) ∧
    (listPartsRun 3 2 [⟨1, "E1", 64⟩] [.err ⟨true, "", ""⟩, .page ⟨"", false, []⟩] =
      listPartsRun 3 1 [⟨1, "E1", 64⟩] [.page ⟨"", false, []⟩]) ∧
    (listMultiRun 3 2 [⟨"k", "u"⟩] ["p"]
        [.page ⟨"m", "um", true, [⟨"k2", "u2"⟩], ["q"]⟩] =
      listMultiRun 3 3 [⟨"k", "u"⟩, ⟨"k2", "u2"⟩] ["p", "q"] []) ∧
    (listMultiRun 3 2 [⟨"k", "u"⟩] ["p"] [.err ⟨true, "", ""⟩] =
      listMultiRun 3 1 [⟨"k", "u"⟩] ["p"] []) :=
  ⟨c7_budget_reset_and_keep.1 3 1 _ _ _ rfl,
   c7_budget_reset_and_keep.2.1 3 1 _ _ _ rfl (by decide),
   c7_budget_reset_and_keep.2.2.1 3 1 _ _ _ _ rfl,
   c7_budget_reset_and_keep.2.2.2 3 1 _ _ _ _ rfl (by decide)⟩

/-! ## `Multi.PutPartHash` -/

/-- Outcome of one attempt of `Multi.PutPartHash`: the first failing
stage of the attempt (seek, prepare, run), or the HTTP response's ETag
header together with the number of payload bytes the transport consumed
from the stream during the attempt. -/
inductive PutOutcome where
  | seekFail (e : SvcErr)
  | prepFail (e : SvcErr)
  | runFail (e : SvcErr) (consumed : Nat)
  | resp (etag : String) (consumed : Nat)
deriving Repr, DecidableEq

/-- Error built by `errors.New` for a success response with no ETag. -/
def noETagError : SvcErr := ⟨false, "", "part upload succeeded with no ETag"⟩

/-- Retry loop of `Multi.PutPartHash` for part number `n` of size
`partSize`.  The second `Nat` argument is the payload stream's current
offset; every attempt begins with `r.Seek(0, 0)`, so each issued HTTP
request reads from offset 0 and leaves the stream at the consumed byte
count.  Returns the Go `(Part, error)` pair (`none` error = success;
the outer `none` models running off the script or the `panic`
fallthrough) together with the list of stream offsets at which HTTP
requests were issued.  Attempt policy modelled as in `listPartsRun`. -/
def putPartRun (maxA : Nat) (n : Int) (partSize : Int) :
    Nat → Nat → List PutOutcome →
    Option (Part × Option SvcErr) × List Nat
  | 0, _, _ => (none, [])
  | _ + 1, _, [] => (none, [])
  | b + 1, _, o :: rest =>
    match o with
    | .seekFail e => (some (Part.empty, some e), [])
    | .prepFail e => (some (Part.empty, some e), [])
    | .runFail e c =>
      if shouldRetry e ∧ 1 ≤ b then
        let r := putPartRun maxA n partSize b (0 + c) rest
        (r.1, 0 :: r.2)
      else (some (Part.empty, some e), [0])
    | .resp etag _ =>
      if etag = "" then (some (Part.empty, some noETagError), [0])
      else (some (⟨n, etag, partSize⟩, none), [0])

/-- C4: a part-upload attempt whose transport call succeeds but whose
response carries an empty ETag makes `PutPartHash` return the no-ETag
error immediately with the empty Part, whatever attempt budget and
scripted outcomes remain (no retry is consumed); and a Part record is
returned error-free only when its ETag is non-empty. -/
theorem c4_empty_etag_immediate_error :
    (∀ (maxA : Nat) (n partSize : Int) (b pos c : Nat)
        (rest : List PutOutcome),
      (putPartRun maxA n partSize (b + 1) pos (.resp "" c :: rest)).1 =
        some (Part.empty, some noETagError)) ∧
    (∀ (maxA : Nat) (n partSize : Int) (budget pos : Nat)
        (script : List PutOutcome) (p : Part),
      (putPartRun maxA n partSize budget pos script).1 = some (p, none) →
      p.ETag ≠ "") := by
  constructor
  · intro maxA n partSize b pos c rest
    rw [putPartRun, if_pos rfl]
  · intro maxA n partSize budget pos script
    induction script generalizing budget pos with
    | nil =>
      intro p h
      cases budget <;> simp [putPartRun] at h
    | cons o rest ih =>
      intro p h
      cases budget with
      | zero => simp [putPartRun] at h
      | succ b =>
        cases o with
        | seekFail e => rw [putPartRun] at h; cases h
        | prepFail e => rw [putPartRun] at h; cases h
        | runFail e c =>
          rw [putPartRun] at h
          by_cases hc : shouldRetry e ∧ 1 ≤ b
          · rw [if_pos hc] at h
            exact ih b (0 + c) p h
          · rw [if_neg hc] at h; cases h
        | resp etag c =>
          rw [putPartRun] at h
          by_cases hc : etag = ""
          · rw [if_pos hc] at h; cases h
          · rw [if_neg hc] at h
            cases h
            exact hc

/-- C4 witness: with two attempts left, a success response with empty
ETag errors at once (the remaining scripted success is never used), and
a returned Part from a successful run has a non-empty ETag. -/
theorem c4_empty_etag_immediate_error_witness :
    (putPartRun 3 1 64 2 0 [.resp "" 64, .resp "E1" 64]).1 =
      some (Part.empty, some noETagError) ∧
    ("E1" : String) ≠ "" :=
  ⟨c4_empty_etag_immediate_error.1 3 1 64 1 0 64 [.resp "E1" 64],
   c4_empty_etag_immediate_error.2 3 1 64 2 0 [.resp "E1" 64]
     ⟨1, "E1", 64⟩ rfl⟩

/-- C8: every attempt of `PutPartHash`, including the first, is preceded
by rewinding the payload source: whatever the stream's starting offset
and whatever bytes earlier attempts consumed, every issued HTTP request
reads from offset 0; and a failed rewind returns that error immediately
with the empty Part — no request is issued and no further attempt is
made (the remaining script is never consulted). -/
theorem c8_rewind_before_every_attempt :
    (∀ (maxA : Nat) (n partSize : Int) (budget pos : Nat)
        (script : List PutOutcome) (q : Nat),
      q ∈ (putPartRun maxA n partSize budget pos script).2 → q = 0) ∧
    (∀ (maxA : Nat) (n partSize : Int) (b pos : Nat) (e : SvcErr)
        (rest : List PutOutcome),
      putPartRun maxA n partSize (b + 1) pos (.seekFail e :: rest) =
        (some (Part.empty, some e), [])) := by
  constructor
  · intro maxA n partSize budget pos script
    induction script generalizing budget pos with
    | nil =>
      intro q hq
      cases budget <;> simp [putPartRun] at hq
    | cons o rest ih =>
      intro q hq
      cases budget with
      | zero => simp [putPartRun] at hq
      | succ b =>
        cases o with
        | seekFail e => simp [putPartRun] at hq
        | prepFail e => simp [putPartRun] at hq
        | runFail e c =>
          rw [putPartRun] at hq
          by_cases hc : shouldRetry e ∧ 1 ≤ b
          · rw [if_pos hc] at hq
            rcases List.mem_cons.mp hq with h0 | hmem
            · exact h0
            · exact ih b (0 + c) q hmem
          · rw [if_neg hc] at hq
            simpa using hq
        | resp etag c =>
          rw [putPartRun] at hq
          by_cases hc : etag = "" <;>
            [rw [if_pos hc] at hq; rw [if_neg hc] at hq] <;> simpa using hq
  · intro maxA n partSize b pos e rest
    rw [putPartRun]

/-- C8 witness: after a retryable transport failure that consumed 5
bytes, the second request is still issued at offset 0; a failing first
rewind surfaces the seek error at once with the empty Part. -/
theorem c8_rewind_before_every_attempt_witness :
    (0 : Nat) = 0 ∧
    putPartRun 3 1 64 3 42 [.seekFail ⟨false, "", "seek failed"⟩, .resp "E1" 64] =
      (some (Part.empty, some ⟨false, "", "seek failed"⟩), []) :=
  ⟨c8_rewind_before_every_attempt.1 3 1 64 3 42
      [.runFail ⟨true, "", ""⟩ 5, .resp "E1" 64] 0 (by decide),
   c8_rewind_before_every_attempt.2 3 1 64 2 42 ⟨false, "", "seek failed"⟩
      [.resp "E1" 64]⟩

/-! ## `Bucket.Multi`: discover-or-create -/

/-- Bucket.Multi from `multi.go`, as a function of the outcome of the
`ListMulti` call and of the (lazily consulted) outcome of `InitMulti`.
When `ListMulti` errors, Go's `multis` result is nil, so the key-scan
loop finds nothing and initiation proceeds. -/
def bucketMulti (key : String) (listRes : Except SvcErr (List MultiRec))
    (initRes : Except SvcErr MultiRec) : Except SvcErr MultiRec :=
  match listRes with
  | .error e =>
    if hasCode e "NoSuchUpload" then initRes
    else .error e
  | .ok multis =>
    match multis.find? (fun m => m.Key = key) with
    | some m => .ok m
    | none => initRes

/-- C5: a "no such upload" error from the listing call is not
propagated — discovery behaves as "zero existing sessions" and the new
session from initiation is returned; any other listing error is
returned to the caller. -/
theorem c5_multi_no_such_upload :
    (∀ (key : String) (initRes : Except SvcErr MultiRec) (e : SvcErr),
      hasCode e "NoSuchUpload" = true →
      bucketMulti key (.error e) initRes = initRes) ∧
    (∀ (key : String) (initRes : Except SvcErr MultiRec) (e : SvcErr),
      hasCode e "NoSuchUpload" = false →
      bucketMulti key (.error e) initRes = .error e) := by
  constructor
  · intro key initRes e h
    rw [bucketMulti, if_pos h]
  · intro key initRes e h
    rw [bucketMulti, if_neg (by simp [h])]

/-- C5 witness: a 404-style NoSuchUpload listing error leads to the
initiated session; a different error is surfaced unchanged. -/
theorem c5_multi_no_such_upload_witness :
    bucketMulti "multi" (.error ⟨false, "NoSuchUpload", ""⟩)
        (.ok ⟨"multi", "JNbR"⟩) = .ok ⟨"multi", "JNbR"⟩ ∧
    bucketMulti "multi" (.error ⟨false, "AccessDenied", ""⟩)
        (.ok ⟨"multi", "JNbR"⟩) = .error ⟨false, "AccessDenied", ""⟩ :=
  ⟨c5_multi_no_such_upload.1 "multi" _ _ (by decide),
   c5_multi_no_such_upload.2 "multi" _ _ (by decide)⟩

/-! ## SigV4 canonical query string (`sign_v4.go`) -/

/-- Sorted list of strings, as produced by `sort.Strings` (byte-wise
lexicographic; identical to codepoint order on the ASCII data here). -/
def sortStrings (l : List String) : List String :=
  List.insertionSort (fun a b : String => a ≤ b) l

/-- Separator-joined concatenation, as `strings.Join`. -/
def joinSep (sep : String) : List String → String
  | [] => ""
  | [x] => x
  | x :: xs => x ++ sep ++ joinSep sep xs

/-- Uppercase hexadecimal digit for a value below 16 (Go renders
escapes as "%XX" with uppercase hex). -/
def hexUpper (n : Nat) : Char :=
  if n < 10 then Char.ofNat (48 + n) else Char.ofNat (55 + n)

/-- Per-character escaping of `url.QueryEscape` (ASCII inputs):
alphanumerics and `-` `_` `.` `~` pass through, the space becomes `+`,
every other character becomes `%XX`. -/
def escapeQueryChar (c : Char) : List Char :=
  if c.isAlphanum ∨ c = '-' ∨ c = '_' ∨ c = '.' ∨ c = '~' then [c]
  else if c = ' ' then ['+']
  else ['%', hexUpper (c.toNat / 16 % 16), hexUpper (c.toNat % 16)]

/-- Model of `url.QueryEscape` on ASCII strings. -/
def queryEscape (s : String) : String := ⟨s.data.flatMap escapeQueryChar⟩

/-- Character-wise substitution underlying
`strings.Replace(query_str, "+", "%20", -1)`: the pattern is the single
character `+`, so the replacement acts independently on each character. -/
def plusToPct (c : Char) : List Char :=
  if c = '+' then ['%', '2', '0'] else [c]

/-- The final `+` to `%20` substitution of `canonicalQueryString`. -/
def replacePlus (s : String) : String := ⟨s.data.flatMap plusToPct⟩

/-- V4Signer.canonicalQueryString from `sign_v4.go`.  `q` is
`u.Query()`: decoded parameter names, each with its values in arrival
order, names distinct (a Go map).  The `keyValues` map is modelled by
association-list lookup: `QueryEscape` is injective and the names are
distinct, so first-match lookup agrees with the map. -/
def canonicalQueryString (q : List (String × List String)) : String :=
  let pairs := q.map (fun kv =>
    (queryEscape kv.1,
     joinSep "&" (kv.2.map (fun v => queryEscape kv.1 ++ "=" ++ queryEscape v))))
  let keys := sortStrings (pairs.map Prod.fst)
  let query := keys.map (fun k => (pairs.lookup k).getD "")
  replacePlus (joinSep "&" query)

/-- Percent-encoding of one component with space rendered `%20`:
`QueryEscape` followed by the `+` to `%20` substitution. -/
def escape20 (s : String) : String := replacePlus (queryEscape s)

/-- The canonical query string with the `+` to `%20` substitution pushed
into each encoded name and value; the sort keys are the same
`QueryEscape`-encoded names the code sorts on. -/
def canonicalQueryString20 (q : List (String × List String)) : String :=
  let pairs := q.map (fun kv =>
    (queryEscape kv.1,
     joinSep "&" (kv.2.map (fun v => escape20 kv.1 ++ "=" ++ escape20 v))))
  let keys := sortStrings (pairs.map Prod.fst)
  joinSep "&" (keys.map (fun k => (pairs.lookup k).getD ""))

theorem replacePlus_append (a b : String) :
    replacePlus (a ++ b) = replacePlus a ++ replacePlus b := by
  apply congrArg String.mk
  simp [replacePlus]

theorem replacePlus_join_amp (l : List String) :
    replacePlus (joinSep "&" l) = joinSep "&" (l.map replacePlus) := by
  induction l with
  | nil => rfl
  | cons x xs ih =>
    cases xs with
    | nil => rfl
    | cons y ys =>
      have : replacePlus (x ++ "&" ++ joinSep "&" (y :: ys)) =
          replacePlus x ++ "&" ++ replacePlus (joinSep "&" (y :: ys)) := by
        rw [replacePlus_append, replacePlus_append]
        rfl
      simpa [joinSep, this] using congrArg (fun s => replacePlus x ++ "&" ++ s) ih

theorem lookup_map_replacePlus (l : List (String × String)) (k : String) :
    (l.map (fun p => (p.1, replacePlus p.2))).lookup k =
      (l.lookup k).map replacePlus := by
  induction l with
  | nil => rfl
  | cons p t ih =>
    by_cases hk : k = p.1
    · simp [List.lookup, hk]
    · have : (k == p.1) = false := beq_false_of_ne hk
      simp [List.lookup, this, ih]

theorem canonicalQueryString_eq_20 (q : List (String × List String)) :
    canonicalQueryString q = canonicalQueryString20 q := by
  simp only [canonicalQueryString, canonicalQueryString20]
  rw [replacePlus_join_amp, List.map_map, List.map_map]
  have hgroup : ∀ kv : String × List String,
      replacePlus (joinSep "&" (kv.2.map (fun v =>
        queryEscape kv.1 ++ "=" ++ queryEscape v))) =
      joinSep "&" (kv.2.map (fun v => escape20 kv.1 ++ "=" ++ escape20 v)) := by
    intro kv
    rw [replacePlus_join_amp, List.map_map]
    apply congrArg (joinSep "&")
    apply List.map_congr_left
    intro v _
    show replacePlus (queryEscape kv.1 ++ "=" ++ queryEscape v) = _
    rw [replacePlus_append, replacePlus_append]
    rfl
  have hpairs : List.map (fun p => (p.1, replacePlus p.2))
      (q.map (fun kv =>
      (queryEscape kv.1,
       joinSep "&" (kv.2.map (fun v => queryEscape kv.1 ++ "=" ++ queryEscape v))))) =
      q.map (fun kv =>
      (queryEscape kv.1,
       joinSep "&" (kv.2.map (fun v => escape20 kv.1 ++ "=" ++ escape20 v)))) := by
    rw [List.map_map]
    apply List.map_congr_left
    intro kv _
    simp only [Function.comp]
    rw [hgroup kv]
  apply congrArg (joinSep "&")
  have hkeys : List.map (Prod.fst ∘ fun kv =>
      (queryEscape kv.1,
       joinSep "&" (kv.2.map (fun v => queryEscape kv.1 ++ "=" ++ queryEscape v)))) q =
      List.map Prod.fst (List.map (fun kv =>
      (queryEscape kv.1,
       joinSep "&" (kv.2.map (fun v => escape20 kv.1 ++ "=" ++ escape20 v)))) q) := by
    rw [List.map_map]
    rfl
  rw [hkeys]
  apply List.map_congr_left
  intro k _
  simp only [Function.comp]
  rw [← hpairs, lookup_map_replacePlus]
  cases (q.map (fun kv =>
      (queryEscape kv.1,
       joinSep "&" (kv.2.map (fun v =>
         queryEscape kv.1 ++ "=" ++ queryEscape v))))).lookup k <;> rfl

theorem replacePlus_no_plus (s : String) : '+' ∉ (replacePlus s).data := by
  intro hmem
  rcases List.mem_flatMap.mp hmem with ⟨c, _, hc⟩
  by_cases h : c = '+' <;> simp [plusToPct, h] at hc
  exact h hc.symm

/-- C9: spaces are rendered `%20` and never `+`: the canonical query
string is identical to the variant in which every name and value is
encoded by `escape20` (percent-encoding rendering the space as `%20`),
`escape20` maps the space character exactly to `%20`, and no `+`
character occurs anywhere in the output. -/
theorem c9_space_encoded_percent20 :
    (∀ q, canonicalQueryString q = canonicalQueryString20 q) ∧
    escape20 " " = "%20" ∧
    ∀ q, '+' ∉ (canonicalQueryString q).data :=
  ⟨canonicalQueryString_eq_20, by decide, fun q => by
    simp only [canonicalQueryString]
    exact replacePlus_no_plus _⟩

/-- C9 witness: a name and a value containing spaces render with `%20`. -/
theorem c9_space_encoded_percent20_witness :
    canonicalQueryString [("a b", ["c d"])] =
      canonicalQueryString20 [("a b", ["c d"])] ∧
    canonicalQueryString [("a b", ["c d"])] = "a%20b=c%20d" :=
  ⟨c9_space_encoded_percent20.1 [("a b", ["c d"])], by decide⟩

/-- C3 evaluation at the failing input: with one parameter name carrying
the values ["2", "1"] in that order, the code emits the pairs in
supplied order, not sorted, so the canonical query string differs from
the one for the permuted values ["1", "2"]. -/
theorem c3_values_not_sorted_counterexample :
    canonicalQueryString [("a", ["2", "1"])] = "a=2&a=1" ∧
    canonicalQueryString [("a", ["1", "2"])] = "a=1&a=2" ∧
    canonicalQueryString [("a", ["2", "1"])] ≠
      canonicalQueryString [("a", ["1", "2"])] := by
  refine ⟨by decide, by decide, by decide⟩

/-! ## SigV4 canonical headers and signed-header list (`sign_v4.go`) -/

/-- Model of `strings.ToLower` (ASCII). -/
def strToLower (s : String) : String := ⟨s.data.map Char.toLower⟩

/-- Model of `strings.Trim(w, " ")`. -/
def trimSpaces (s : String) : String :=
  ⟨((s.data.dropWhile (fun c => c = ' ')).reverse.dropWhile
      (fun c => c = ' ')).reverse⟩

/-- Go map assignment `m[k] = v` on an association list: overwrite an
existing entry in place, or append a new one. -/
def mapSet (m : List (String × List String)) (k : String) (v : List String) :
    List (String × List String) :=
  if m.any (fun kv => kv.1 = k) then
    m.map (fun kv => if kv.1 = k then (k, v) else kv)
  else m ++ [(k, v)]

/-- The `lowerCase` map of `V4Signer.canonicalHeaders`: every header
copied under its lowercased name.  Go map iteration order is
unspecified; this fold fixes the header list's order, which affects only
which case-duplicate's values survive, never the key set, and the
outputs the claims are about are sorted over that key set. -/
def lowerCaseMap (h : List (String × List String)) : List (String × List String) :=
  h.foldl (fun m kv => mapSet m (strToLower kv.1) kv.2) []

/-- The sorted key list of the `lowerCase` map: the names of the
`name:value` lines of the canonical header block. -/
def canonicalHeaderKeys (h : List (String × List String)) : List String :=
  sortStrings ((lowerCaseMap h).map Prod.fst)

/-- One line of the canonical header block:
`strings.ToLower(k) + ":" + strings.Join(v, ",")` with the looked-up
values space-trimmed and sorted. -/
def canonicalHeaderLine (m : List (String × List String)) (k : String) : String :=
  strToLower k ++ ":" ++
    joinSep "," (sortStrings (((m.lookup k).getD []).map trimSpaces))

/-- V4Signer.canonicalHeaders: the sorted lines joined by newlines.  The
Go `a := make([]string, len(h))` array keeps empty slots when
case-duplicate names collapsed in the `lowerCase` map, so the join is
padded with empty strings up to `h.length`. -/
def canonicalHeaders (h : List (String × List String)) : String :=
  let lines := (canonicalHeaderKeys h).map (canonicalHeaderLine (lowerCaseMap h))
  joinSep "\n" (lines ++ List.replicate (h.length - lines.length) "")

/-- The sorted lowercased header names of `V4Signer.signedHeaders`. -/
def signedHeaderNames (h : List (String × List String)) : List String :=
  sortStrings (h.map (fun kv => strToLower kv.1))

/-- V4Signer.signedHeaders: the sorted lowercased names joined by `;`. -/
def signedHeaders (h : List (String × List String)) : String :=
  joinSep ";" (signedHeaderNames h)

theorem mem_keys_mapSet (m : List (String × List String)) (k : String)
    (v : List String) (x : String) :
    x ∈ (mapSet m k v).map Prod.fst ↔ x ∈ m.map Prod.fst ∨ x = k := by
  by_cases hp : m.any (fun kv => kv.1 = k)
  · rw [mapSet, if_pos hp]
    have hkeys : (m.map (fun kv => if kv.1 = k then (k, v) else kv)).map Prod.fst =
        m.map Prod.fst := by
      rw [List.map_map]
      apply List.map_congr_left
      intro kv _
      simp only [Function.comp]
      by_cases hk : kv.1 = k
      · rw [if_pos hk]
        exact hk.symm
      · rw [if_neg hk]
    rw [hkeys]
    constructor
    · exact Or.inl
    · rintro (hmem | hx)
      · exact hmem
      · subst hx
        rcases List.any_eq_true.mp hp with ⟨kv, hkv, hk⟩
        exact List.mem_map.mpr ⟨kv, hkv, of_decide_eq_true hk⟩
  · rw [mapSet, if_neg hp]
    simp

theorem mem_keys_lowerCaseMap_aux (h : List (String × List String)) :
    ∀ (m : List (String × List String)) (x : String),
      (x ∈ (h.foldl (fun m kv => mapSet m (strToLower kv.1) kv.2) m).map Prod.fst ↔
        x ∈ m.map Prod.fst ∨ x ∈ h.map (fun kv => strToLower kv.1)) := by
  induction h with
  | nil => intro m x; simp
  | cons kv t ih =>
    intro m x
    rw [List.foldl_cons, ih, mem_keys_mapSet]
    simp [or_assoc]

theorem mem_keys_lowerCaseMap (h : List (String × List String)) (x : String) :
    x ∈ (lowerCaseMap h).map Prod.fst ↔ x ∈ h.map (fun kv => strToLower kv.1) := by
  rw [lowerCaseMap, mem_keys_lowerCaseMap_aux]
  simp

/-- C2: the signed-header list and the canonical header block name
exactly the same set of headers: the sorted lowercased names joined
into `signedHeaders` and the sorted key list whose entries head the
`name:value` lines of `canonicalHeaders` have equal underlying sets. -/
theorem c2_signed_list_matches_canonical_block (h : List (String × List String)) :
    (signedHeaderNames h).toFinset = (canonicalHeaderKeys h).toFinset := by
  apply List.toFinset.ext
  intro x
  simp only [signedHeaderNames, canonicalHeaderKeys, sortStrings,
    List.mem_insertionSort]
  exact (mem_keys_lowerCaseMap h x).symm

/-- C2 witness: a concrete header mapping with a case-duplicate pair of
names; the two name sets coincide. -/
theorem c2_signed_list_matches_canonical_block_witness :
    (signedHeaderNames [("Host", ["h"]), ("host", ["g"]), ("X-Amz-Date", ["d"])]).toFinset =
      (canonicalHeaderKeys [("Host", ["h"]), ("host", ["g"]), ("X-Amz-Date", ["d"])]).toFinset :=
  c2_signed_list_matches_canonical_block _

/-! ## `V4Signer.Sign`: the host header (`sign_v4.go` + `net/textproto`) -/

/-- Valid MIME header token characters
(`net/textproto.validHeaderFieldByte`): alphanumerics and the bytes
33 `!`, 35 `#`, 36, 37 `%`, 38 `&`, 39, 42 `*`, 43 `+`, 45 `-`, 46 `.`,
94, 95 `_`, 96, 124 `|`, 126 `~`. -/
def isTokenChar (c : Char) : Bool :=
  c.isAlphanum || c = '!' || c = '#' || c = '$' || c = '%' || c = '&' ||
  c.toNat = 39 || c = '*' || c = '+' || c = '-' || c = '.' || c = '^' ||
  c = '_' || c.toNat = 96 || c = '|' || c = '~'

/-- Character pass of `textproto.CanonicalMIMEHeaderKey`: uppercase the
first character and each character following a `-`, lowercase the rest. -/
def canonMIMEAux : Bool → List Char → List Char
  | _, [] => []
  | up, c :: cs =>
    (if up then c.toUpper else c.toLower) :: canonMIMEAux (c = '-') cs

/-- Model of `textproto.CanonicalMIMEHeaderKey`: canonical-case a key
made of valid token characters; keys with invalid characters pass
through unchanged. -/
def canonicalMIMEHeaderKey (s : String) : String :=
  if s.data.all isTokenChar then ⟨canonMIMEAux true s.data⟩ else s

/-- Model of `http.Header.Set`: assign under the canonical MIME key. -/
def headerSet (h : List (String × List String)) (k : String)
    (v : List String) : List (String × List String) :=
  mapSet h (canonicalMIMEHeaderKey k) v

/-- Model of `http.Header.Del`: remove the canonical MIME key. -/
def headerDel (h : List (String × List String)) (k : String) :
    List (String × List String) :=
  h.filter (fun kv => kv.1 ≠ canonicalMIMEHeaderKey k)

/-- The request headers at canonicalization time in `V4Signer.Sign`:
`req.Header.Set("host", req.Host)` runs first; `requestTime` may then
set `"x-amz-date"` (the `dateSet` parameter covers both of its possible
header effects); in query-presign mode (`X-Amz-Expires` present)
`"x-amz-date"` is deleted, otherwise `"x-amz-content-sha256"` is set to
the payload hash.  Both the `X-Amz-SignedHeaders` query parameter and
the canonical request's signed-header list are computed from this
header state. -/
def signHeaderState (h : List (String × List String)) (host : String)
    (hasExpires : Bool) (dateSet : Option String) (payloadHash : String) :
    List (String × List String) :=
  let h1 := headerSet h "host" [host]
  let h2 := match dateSet with
    | none => h1
    | some d => headerSet h1 "x-amz-date" [d]
  if hasExpires then headerDel h2 "x-amz-date"
  else headerSet h2 "x-amz-content-sha256" [payloadHash]

theorem lookup_overwrite_self (k : String) (v : List String) :
    ∀ m : List (String × List String), m.any (fun kv => kv.1 = k) →
      (m.map (fun kv => if kv.1 = k then (k, v) else kv)).lookup k = some v := by
  intro m
  induction m with
  | nil => intro hp; simp at hp
  | cons kv t ih =>
    intro hp
    rw [List.map_cons]
    by_cases hk : kv.1 = k
    · rw [if_pos hk, List.lookup_cons_self]
    · have hb : (k == kv.1) = false := beq_false_of_ne (fun he => hk he.symm)
      rw [if_neg hk, List.lookup_cons, hb]
      apply ih
      rcases List.any_eq_true.mp hp with ⟨kv', hkv', hk'⟩
      rcases List.mem_cons.mp hkv' with he | hmem
      · exact absurd (of_decide_eq_true (he ▸ hk')) hk
      · exact List.any_eq_true.mpr ⟨kv', hmem, hk'⟩

theorem lookup_append_single_self (k : String) (v : List String) :
    ∀ m : List (String × List String),
      ¬ m.any (fun kv => kv.1 = k) → (m ++ [(k, v)]).lookup k = some v := by
  intro m
  induction m with
  | nil => intro _; exact List.lookup_cons_self
  | cons kv t ih =>
    intro hp
    have hk : ¬ kv.1 = k := by
      intro he
      exact hp (List.any_eq_true.mpr ⟨kv, List.mem_cons_self kv t, decide_eq_true he⟩)
    have hb : (k == kv.1) = false := beq_false_of_ne (fun he => hk he.symm)
    rw [List.cons_append, List.lookup_cons, hb]
    apply ih
    intro hcon
    rcases List.any_eq_true.mp hcon with ⟨kv', hkv', hk'⟩
    exact hp (List.any_eq_true.mpr ⟨kv', List.mem_cons_of_mem kv hkv', hk'⟩)

theorem lookup_mapSet_self (m : List (String × List String)) (k : String)
    (v : List String) : (mapSet m k v).lookup k = some v := by
  rw [mapSet]
  by_cases hp : m.any (fun kv => kv.1 = k)
  · rw [if_pos hp]
    exact lookup_overwrite_self k v m hp
  · rw [if_neg hp]
    exact lookup_append_single_self k v m hp

theorem lookup_overwrite_ne (k k' : String) (v : List String) (hne : k' ≠ k) :
    ∀ m : List (String × List String),
      (m.map (fun kv => if kv.1 = k then (k, v) else kv)).lookup k' = m.lookup k' := by
  intro m
  induction m with
  | nil => rfl
  | cons kv t ih =>
    rw [List.map_cons]
    by_cases hk : kv.1 = k
    · have hb : (k' == kv.1) = false := beq_false_of_ne (fun he => hne (he.trans hk))
      have hb' : (k' == k) = false := beq_false_of_ne hne
      rw [if_pos hk, List.lookup_cons, List.lookup_cons, hb, hb']
      exact ih
    · rw [if_neg hk, List.lookup_cons, List.lookup_cons]
      cases hbeq : (k' == kv.1) with
      | true => rfl
      | false => exact ih

theorem lookup_append_single_ne (k k' : String) (v : List String) (hne : k' ≠ k) :
    ∀ m : List (String × List String),
      (m ++ [(k, v)]).lookup k' = m.lookup k' := by
  intro m
  induction m with
  | nil =>
    have hb : (k' == k) = false := beq_false_of_ne hne
    rw [List.nil_append, List.lookup_cons, hb]
  | cons kv t ih =>
    rw [List.cons_append, List.lookup_cons, List.lookup_cons]
    cases hbeq : (k' == kv.1) with
    | true => rfl
    | false => exact ih

theorem lookup_mapSet_ne (m : List (String × List String)) (k k' : String)
    (v : List String) (hne : k' ≠ k) :
    (mapSet m k v).lookup k' = m.lookup k' := by
  rw [mapSet]
  by_cases hp : m.any (fun kv => kv.1 = k)
  · rw [if_pos hp]
    exact lookup_overwrite_ne k k' v hne m
  · rw [if_neg hp]
    exact lookup_append_single_ne k k' v hne m

theorem lookup_headerDel_ne (h : List (String × List String)) (k k' : String)
    (hne : k' ≠ canonicalMIMEHeaderKey k) :
    (headerDel h k).lookup k' = h.lookup k' := by
  rw [headerDel]
  induction h with
  | nil => rfl
  | cons kv t ih =>
    rw [List.filter_cons]
    by_cases hk : kv.1 = canonicalMIMEHeaderKey k
    · have hb : (k' == kv.1) = false := beq_false_of_ne (fun he => hne (he.trans hk))
      have hd : (decide (kv.1 ≠ canonicalMIMEHeaderKey k)) = false := by
        simp [hk]
      rw [hd, if_neg (by simp), List.lookup_cons, hb]
      exact ih
    · have hd : (decide (kv.1 ≠ canonicalMIMEHeaderKey k)) = true := by
        simp [hk]
      rw [hd, if_pos rfl, List.lookup_cons, List.lookup_cons]
      cases hbeq : (k' == kv.1) with
      | true => rfl
      | false => exact ih

theorem mem_keys_of_lookup_some (l : List (String × List String)) (k : String)
    (v : List String) (h : l.lookup k = some v) : k ∈ l.map Prod.fst := by
  induction l with
  | nil => simp [List.lookup] at h
  | cons kv t ih =>
    by_cases hk : k = kv.1
    · exact List.mem_map.mpr ⟨kv, List.mem_cons_self kv t, hk.symm⟩
    · have hb : (k == kv.1) = false := beq_false_of_ne hk
      rw [List.lookup, hb] at h
      exact List.mem_cons_of_mem _ (ih h)

/-- C10: `Sign` overwrites the request's `host` header with the `Host`
field before any canonicalization, in both the header-signing and the
query-presigning mode and whatever `requestTime` did to the date header:
the header state every signed-header list is computed from maps `Host`
to exactly `[host]`, and `host` appears in the signed-header name list. -/
theorem c10_host_header_always_signed (h : List (String × List String))
    (host : String) (hasExpires : Bool) (dateSet : Option String)
    (payloadHash : String) :
    (signHeaderState h host hasExpires dateSet payloadHash).lookup "Host" =
      some [host] ∧
    "host" ∈ signedHeaderNames (signHeaderState h host hasExpires dateSet payloadHash) := by
  have hck : canonicalMIMEHeaderKey "host" = "Host" := by decide
  have hcd : canonicalMIMEHeaderKey "x-amz-date" = "X-Amz-Date" := by decide
  have hcs : canonicalMIMEHeaderKey "x-amz-content-sha256" =
      "X-Amz-Content-Sha256" := by decide
  have hne₁ : ("Host" : String) ≠ "X-Amz-Date" := by decide
  have hne₂ : ("Host" : String) ≠ "X-Amz-Content-Sha256" := by decide
  have h1 : (headerSet h "host" [host]).lookup "Host" = some [host] := by
    simp only [headerSet]
    rw [hck]
    exact lookup_mapSet_self h "Host" [host]
  have hlook : (signHeaderState h host hasExpires dateSet payloadHash).lookup "Host" =
      some [host] := by
    have h2 : (match dateSet with
        | none => headerSet h "host" [host]
        | some d => headerSet (headerSet h "host" [host]) "x-amz-date" [d]).lookup
          "Host" = some [host] := by
      cases dateSet with
      | none => exact h1
      | some d =>
        simp only [headerSet]
        rw [hcd, lookup_mapSet_ne _ _ _ _ hne₁]
        exact h1
    simp only [signHeaderState]
    cases hasExpires with
    | true =>
      rw [if_pos rfl]
      rw [lookup_headerDel_ne _ _ _ (by rw [hcd]; exact hne₁)]
      exact h2
    | false =>
      rw [if_neg (by simp)]
      simp only [headerSet]
      rw [hcs, lookup_mapSet_ne _ _ _ _ hne₂]
      exact h2
  refine ⟨hlook, ?_⟩
  have hmem : "Host" ∈ (signHeaderState h host hasExpires dateSet payloadHash).map Prod.fst :=
    mem_keys_of_lookup_some _ _ _ hlook
  rcases List.mem_map.mp hmem with ⟨kv, hkv, hfst⟩
  rw [signedHeaderNames, sortStrings]
  rw [List.mem_insertionSort]
  refine List.mem_map.mpr ⟨kv, hkv, ?_⟩
  rw [hfst]
  decide

/-- C10 witness: with a caller-supplied stale Host header, both signing
modes leave `Host` bound to the request's host field and `host` among
the signed header names. -/
theorem c10_host_header_always_signed_witness :
    ((signHeaderState [("Host", ["stale"])] "bucket.s3.amazonaws.com" true
        (some "20130524T000000Z") "h").lookup "Host" =
      some ["bucket.s3.amazonaws.com"] ∧
    "host" ∈ signedHeaderNames (signHeaderState [("Host", ["stale"])]
        "bucket.s3.amazonaws.com" true (some "20130524T000000Z") "h")) ∧
    ((signHeaderState [("Host", ["stale"])] "bucket.s3.amazonaws.com" false
        none "h").lookup "Host" = some ["bucket.s3.amazonaws.com"] ∧
    "host" ∈ signedHeaderNames (signHeaderState [("Host", ["stale"])]
        "bucket.s3.amazonaws.com" false none "h")) :=
  ⟨c10_host_header_always_signed [("Host", ["stale"])] "bucket.s3.amazonaws.com"
      true (some "20130524T000000Z") "h",
   c10_host_header_always_signed [("Host", ["stale"])] "bucket.s3.amazonaws.com"
      false none "h"⟩

end Goamz
